import Mathlib

/-!
Verification of the gita-query retrieval-and-answer pipeline.

Python strings are modelled as `List Char`; the similarity scores coming from
the vector index (floats in the source) are modelled as rationals `ℚ`.
The embedding model and the vector index are external collaborators, so the
raw hit list an index search produces is passed in as an explicit parameter
(a list of (score, index) pairs, mirroring the faiss return convention).
All definitions are translated from `src/rag/utils.py`, `src/rag/retriever.py`
and `src/rag/answer.py`.
-/

set_option autoImplicit false

namespace GitaQuery

/-- Whitespace predicate modelling Python's `str.isspace` / regex `\s`
character class (ASCII whitespace, the C0 separators and the Unicode
space characters). -/
def pyIsSpace (c : Char) : Bool :=
  ([9, 10, 11, 12, 13, 28, 29, 30, 31, 32, 133, 160, 5760,
    8192, 8193, 8194, 8195, 8196, 8197, 8198, 8199, 8200, 8201, 8202,
    8232, 8233, 8239, 8287, 12288] : List Nat).contains c.toNat

/-- ASCII lower-casing, modelling `str.lower` on the ASCII range (all
keyword lists and claim inputs are ASCII). -/
def asciiLowerChar (c : Char) : Char :=
  if 'A' ≤ c ∧ c ≤ 'Z' then Char.ofNat (c.toNat + 32) else c

/-- Lower-case a whole string. -/
def asciiLower (l : List Char) : List Char := l.map asciiLowerChar

/-- Dropping a prefix can only shorten a list. -/
theorem dropWhileLenLe {α : Type} (p : α → Bool) (l : List α) :
    (l.dropWhile p).length ≤ l.length :=
  (List.dropWhile_suffix p).sublist.length_le

/-- Python `s.strip(chars)`: remove leading and trailing characters
satisfying `p`. -/
def stripChars (p : Char → Bool) (l : List Char) : List Char :=
  (l.dropWhile p).rdropWhile p

/-- Python `str.strip()` with no argument (whitespace). -/
def pyStrip (l : List Char) : List Char := stripChars pyIsSpace l

/-- Python `str.split()` with no argument: maximal runs of non-whitespace
characters, empty pieces discarded. -/
def pyWords : List Char → List (List Char)
  | [] => []
  | c :: cs =>
    if pyIsSpace c then pyWords cs
    else (c :: cs.takeWhile (fun d => !pyIsSpace d)) ::
      pyWords (cs.dropWhile (fun d => !pyIsSpace d))
  termination_by l => l.length
  decreasing_by
  · simp only [List.length_cons]
    exact Nat.lt_succ_of_le (Nat.le_refl _)
  · simp only [List.length_cons]
    exact Nat.lt_succ_of_le (dropWhileLenLe _ _)

/-- Python `s.split(sep)` for a one-character separator: keeps empty
pieces, e.g. `"a..b".split('.') = ["a", "", "b"]`. -/
def splitOnChar (sep : Char) : List Char → List (List Char)
  | [] => [[]]
  | c :: cs =>
    if c = sep then [] :: splitOnChar sep cs
    else
      match splitOnChar sep cs with
      | [] => [[c]]
      | s :: rest => (c :: s) :: rest

/-- Python `re.split(r'[…]+', s)`: split on maximal runs of separator
characters, keeping the (possibly empty) pieces between runs. -/
def splitRuns (p : Char → Bool) : List Char → List (List Char)
  | [] => [[]]
  | c :: cs =>
    if p c then [] :: splitRuns p (cs.dropWhile p)
    else
      match splitRuns p cs with
      | [] => [[c]]
      | s :: rest => (c :: s) :: rest
  termination_by l => l.length
  decreasing_by
  · simp only [List.length_cons]
    exact Nat.lt_succ_of_le (dropWhileLenLe _ _)
  · simp only [List.length_cons]
    exact Nat.lt_succ_of_le (Nat.le_refl _)

/-- Replace each maximal whitespace run by a single space, modelling
`re.sub(r'\s+', ' ', s)`. -/
def collapseWs : List Char → List Char
  | [] => []
  | c :: cs =>
    if pyIsSpace c then ' ' :: collapseWs (cs.dropWhile pyIsSpace)
    else c :: collapseWs cs
  termination_by l => l.length
  decreasing_by
  · simp only [List.length_cons]
    exact Nat.lt_succ_of_le (dropWhileLenLe _ _)
  · simp only [List.length_cons]
    exact Nat.lt_succ_of_le (Nat.le_refl _)

/-- Printable-or-newline predicate of `re.sub(r'[^\x20-\x7E\n]', '', s)`:
a character is kept when it is in the printable ASCII range or is a
newline. -/
def keepChar (c : Char) : Bool :=
  (32 ≤ c.toNat && c.toNat ≤ 126) || c == '\n'

/-- Faithful model of `clean_text` (src/rag/utils.py): strip, collapse
whitespace runs to single spaces, then delete characters outside
`\x20`-`\x7E` except newlines. -/
def clean_text (text : List Char) : List Char :=
  if text = [] then []
  else (collapseWs (pyStrip text)).filter keepChar

/-- Join a list of strings with a separator, modelling `sep.join(parts)`. -/
def joinWith (sep : List Char) : List (List Char) → List Char
  | [] => []
  | [x] => x
  | x :: xs => x ++ sep ++ joinWith sep xs

/-- Decimal digit character for a digit value below 10. -/
def digitChar (d : Nat) : Char := Char.ofNat (48 + d)

/-- Decimal representation of a natural number, as produced by Python's
`str(n)` / f-string interpolation of a non-negative int. -/
def natToDigits (n : Nat) : List Char :=
  if n < 10 then [digitChar n]
  else natToDigits (n / 10) ++ [digitChar (n % 10)]
  termination_by n
  decreasing_by
    exact Nat.div_lt_self (by omega) (by omega)

/-- Model of `build_citation` (src/rag/utils.py): the string
`"[{chapter}.{verse}]"`. -/
def build_citation (chapter verse : Nat) : List Char :=
  '[' :: (natToDigits chapter ++ '.' :: (natToDigits verse ++ [']']))

/-- Decimal digit test, matching the regex class `\d` on ASCII input. -/
def isDig (c : Char) : Bool := '0' ≤ c && c ≤ '9'

/-- One attempt of the pattern `\[(\d+)\.(\d+)\]` just after an opening
bracket: greedy digit runs around a literal dot, closed by `]`.  On
success it returns the matched text (brackets included, the string the
source rebuilds as `f"[{match[0]}.{match[1]}]"`) and the remaining
input after the match. -/
def tryCite (l : List Char) : Option (List Char × List Char) :=
  match l.dropWhile isDig with
  | '.' :: r2 =>
    match r2.dropWhile isDig with
    | ']' :: r3 =>
      if (l.takeWhile isDig).isEmpty || (r2.takeWhile isDig).isEmpty then none
      else some ('[' :: (l.takeWhile isDig ++ '.' :: (r2.takeWhile isDig ++ [']'])), r3)
    | _ => none
  | _ => none

/-- A successful citation match consumes input, never creates it. -/
theorem tryCiteLen (l : List Char) (p : List Char × List Char)
    (h : tryCite l = some p) : p.2.length ≤ l.length := by
  unfold tryCite at h
  split at h
  · rename_i r2 heq
    split at h
    · rename_i r3 heq2
      split at h
      · exact absurd h (by simp)
      · have hp : p.2 = r3 := by
          have := Option.some.inj h
          rw [← this]
        rw [hp]
        have l1 : r3.length < r2.length := by
          have := dropWhileLenLe isDig r2
          rw [heq2] at this
          simp at this
          omega
        have l2 : r2.length < l.length := by
          have := dropWhileLenLe isDig l
          rw [heq] at this
          simp at this
          omega
        omega
    · exact absurd h (by simp)
  · exact absurd h (by simp)

/-- Model of `extract_citations_from_text` (src/rag/utils.py):
`re.findall(r'\[(\d+)\.(\d+)\]', text)` rebuilt as `[c.v]` strings — a
left-to-right, non-overlapping scan for the citation pattern. -/
def extract_citations_from_text : List Char → List (List Char)
  | [] => []
  | c :: rest =>
    if c = '[' then
      match h : tryCite rest with
      | some p => p.1 :: extract_citations_from_text p.2
      | none => extract_citations_from_text rest
    else extract_citations_from_text rest
  termination_by l => l.length
  decreasing_by
  · simp only [List.length_cons]
    exact Nat.lt_succ_of_le (tryCiteLen _ _ h)
  · simp only [List.length_cons]
    exact Nat.lt_succ_of_le (Nat.le_refl _)
  · simp only [List.length_cons]
    exact Nat.lt_succ_of_le (Nat.le_refl _)

/-- Fixed medical keyword list of `safety_check` (src/rag/utils.py). -/
def medical_keywords : List (List Char) :=
  [("medical").data, ("medicine").data, ("doctor").data, ("treatment").data,
   ("diagnosis").data, ("symptoms").data, ("prescription").data, ("drug").data,
   ("therapy").data, ("cure").data, ("illness").data, ("disease").data]

/-- Fixed legal keyword list of `safety_check` (src/rag/utils.py). -/
def legal_keywords : List (List Char) :=
  [("legal").data, ("lawyer").data, ("court").data, ("lawsuit").data,
   ("legal advice").data, ("attorney").data, ("litigation").data,
   ("contract").data, ("legal opinion").data, ("jurisdiction").data]

/-- Python `needle in hay` prefix test helper. -/
def startsWith : List Char → List Char → Bool
  | [], _ => true
  | _ :: _, [] => false
  | a :: as, b :: bs => a == b && startsWith as bs

/-- Python's substring test `needle in hay`. -/
def occursIn (needle : List Char) : List Char → Bool
  | [] => needle.isEmpty
  | c :: cs => startsWith needle (c :: cs) || occursIn needle cs

/-- Model of `safety_check` (src/rag/utils.py): lower-case the query and
return `false` as soon as any medical or legal keyword occurs as a
substring, `true` otherwise. -/
def safety_check (query : List Char) : Bool :=
  !((medical_keywords ++ legal_keywords).any
      (fun kw => occursIn kw (asciiLower query)))

/-- A verse record of the retriever's `docs` list: the fields the
retriever reads from each stored document dict. -/
structure Doc where
  id : List Char
  chapter : Nat
  verse : Nat
  text : List Char
  sanskrit : Option (List Char)
  deriving DecidableEq

/-- A search result dict as assembled by `GitaRetriever.search` /
`get_verse_by_citation`: verse fields plus similarity score and rank. -/
structure SearchResult where
  id : List Char
  chapter : Nat
  verse : Nat
  text : List Char
  sanskrit : Option (List Char)
  score : ℚ
  rank : Nat
  deriving DecidableEq

/-- Model of `GitaRetriever.search` (src/rag/retriever.py).  The opaque
faiss index search over the whole corpus is the `raw` parameter: the
(score, index) pairs of `index.search(query_embedding, ntotal)`, where
an invalid slot is reported as index -1.  The loop keeps hits with
score ≥ 0.1, copies the doc fields, records `rank = i + 1` from the
enumeration position, and finally truncates to `k` when given.
`searchHit` is one iteration of that loop. -/
def searchHit (docs : List Doc) (pair : Nat × (ℚ × Int)) : Option SearchResult :=
  if pair.2.2 = -1 then none
  else if pair.2.1 < mkRat 1 10 then none
  else (docs.get? pair.2.2.toNat).map (fun d =>
    { id := d.id, chapter := d.chapter, verse := d.verse, text := d.text,
      sanskrit := d.sanskrit, score := pair.2.1, rank := pair.1 + 1 })

def search (docs : List Doc) (raw : List (ℚ × Int)) (query : List Char)
    (k : Option Nat) : List SearchResult :=
  if pyStrip query = [] then []
  else
    let results := raw.enum.filterMap (searchHit docs)
    match k with
    | none => results
    | some n => results.take n

/-- The best-answer bundle returned by `search_best_answer`. -/
structure BestAnswerBundle where
  best_verse : SearchResult
  context_verses : List SearchResult
  total_matches : Nat
  confidence : ℚ
  deriving DecidableEq

/-- Model of `GitaRetriever.search_best_answer` (src/rag/retriever.py):
empty queries and queries with no floor-passing hit give `none`
(Python `None`); otherwise the head of the full result list is the
best verse and positions 2-5 are the context. -/
def search_best_answer (docs : List Doc) (raw : List (ℚ × Int))
    (query : List Char) : Option BestAnswerBundle :=
  if pyStrip query = [] then none
  else
    match search docs raw query none with
    | [] => none
    | r :: rs =>
      some { best_verse := r, context_verses := rs.take 4,
             total_matches := (r :: rs).length, confidence := r.score }

/-- Model of `GitaRetriever.get_verse_by_citation`
(src/rag/retriever.py): first linear-scan match on (chapter, verse),
returned as a synthetic result with score 1.0 and rank 1; `none` when
absent.  Chapter and verse arrive as Python ints (a parsed citation may
be negative), the stored fields are naturals. -/
def get_verse_by_citation (docs : List Doc) (chapter verse : Int) :
    Option SearchResult :=
  match docs.find? (fun d => (d.chapter : Int) == chapter && (d.verse : Int) == verse) with
  | some d => some { id := d.id, chapter := d.chapter, verse := d.verse,
                     text := d.text, sanskrit := d.sanskrit, score := 1, rank := 1 }
  | none => none

/-- Digit value of a decimal digit character. -/
def digitVal (c : Char) : Nat := c.toNat - 48

/-- Digit-and-underscore tail of a Python int literal: after the first
digit, underscores may appear singly and only between digits. -/
def intTail (acc : Nat) : List Char → Option Nat
  | [] => some acc
  | '_' :: rest =>
    match rest with
    | d :: rest' => if isDig d then intTail (acc * 10 + digitVal d) rest' else none
    | [] => none
  | d :: rest => if isDig d then intTail (acc * 10 + digitVal d) rest else none

/-- Unsigned part of Python's `int(s)`: a non-empty digit string with
optional grouping underscores. -/
def parseNatPy (l : List Char) : Option Nat :=
  match l with
  | [] => none
  | c :: cs => if isDig c then intTail (digitVal c) cs else none

/-- Python's `int(s)` on ASCII input: surrounding whitespace, an
optional sign, then digits; anything else raises `ValueError`,
modelled as `none`. -/
def parseIntPy (l : List Char) : Option Int :=
  match pyStrip l with
  | '+' :: r => (parseNatPy r).map Int.ofNat
  | '-' :: r => (parseNatPy r).map (fun n => -(n : Int))
  | r => (parseNatPy r).map Int.ofNat

/-- Bracket characters stripped by `citation.strip('[]')`. -/
def isBracketChar (c : Char) : Bool := c == '[' || c == ']'

/-- The parsing step of `validate_citations`:
`chapter, verse = map(int, citation.strip('[]').split('.'))`, with any
`ValueError`/`IndexError` (wrong piece count or non-integer piece)
collapsed to `none`. -/
def parseCitation (citation : List Char) : Option (Int × Int) :=
  match splitOnChar '.' (stripChars isBracketChar citation) with
  | [a, b] =>
    match parseIntPy a, parseIntPy b with
    | some x, some y => some (x, y)
    | _, _ => none
  | _ => none

/-- One row of the report returned by `validate_citations`. -/
structure CitReport where
  citation : List Char
  exists_ : Bool
  verse_data : Option SearchResult
  deriving DecidableEq

/-- Model of `GitaRetriever.validate_citations` (src/rag/retriever.py):
parse each citation string, look the pair up, and report existence;
parse failures are caught and reported as non-existent. -/
def validate_citations (docs : List Doc) (citations : List (List Char)) :
    List CitReport :=
  citations.map (fun c =>
    match parseCitation c with
    | some pr =>
      { citation := c, exists_ := (get_verse_by_citation docs pr.1 pr.2).isSome,
        verse_data := get_verse_by_citation docs pr.1 pr.2 }
    | none => { citation := c, exists_ := false, verse_data := none })

/-- Does a whole string have the exact textual citation form
`[chapter.verse]` (nothing before or after the brackets)? -/
def citationShaped (s : List Char) : Bool :=
  match s with
  | '[' :: r =>
    match tryCite r with
    | some p => decide (p.1 = s) && p.2.isEmpty
    | none => false
  | _ => false

/-- A retrieved passage dict as consumed by `GitaAnswerer`: the answer
path reads exactly the `chapter`, `verse` and `text` keys. -/
structure Passage where
  chapter : Nat
  verse : Nat
  text : List Char
  deriving DecidableEq

/-- The fixed no-passages message of `extractive_answer` and
`generate_answer`. -/
def noVersesMsg : List Char :=
  ("I couldn't find relevant verses in the Bhagavad Gita to answer your question.").data

/-- Sentence-ending punctuation class `[.!?]` of `extractive_answer`. -/
def isSentPunct (c : Char) : Bool := c == '.' || c == '!' || c == '?'

/-- Sentence score of `extractive_answer`:
`len(set(query.lower().split()) & set(sentence.lower().split()))`, the
number of distinct lower-cased query words also occurring among the
sentence's words. -/
def overlapScore (query sentence : List Char) : Nat :=
  (((pyWords (asciiLower query)).dedup).filter
      (fun w => w ∈ pyWords (asciiLower sentence))).length

/-- The sentence-selection loop of `extractive_answer`: strip each
sentence, skip those shorter than 20 characters, and keep the first
sentence whose score strictly exceeds the best so far (starting from
the empty sentence with score 0). -/
def bestLoop (query : List Char) : List (List Char) → List Char × Nat → List Char × Nat
  | [], acc => acc
  | s :: rest, acc =>
    if (pyStrip s).length < 20 then bestLoop query rest acc
    else if acc.2 < overlapScore query (pyStrip s) then
      bestLoop query rest (pyStrip s, overlapScore query (pyStrip s))
    else bestLoop query rest acc

/-- The stripped, length-20-or-more sentences that `extractive_answer`
actually scores, in scan order. -/
def eligSentences (text : List Char) : List (List Char) :=
  ((splitRuns isSentPunct text).map pyStrip).filter (fun s => 20 ≤ s.length)

/-- The fallback sentence `verse_text.split('.')[0] + "."` used when no
sentence scored above zero. -/
def fallbackSentence (text : List Char) : List Char :=
  ((splitOnChar '.' text).headD []) ++ ['.']

/-- The prefix `"The Bhagavad Gita teaches: "` of every extractive
answer. -/
def teachesPrefix : List Char := ("The Bhagavad Gita teaches: ").data

/-- The related-guidance line header appended when more than one passage
was supplied. -/
def relatedPrefix : List Char := ("\n\nRelated guidance: ").data

/-- The optional second line of the extractive answer: citations of
passages 2-3 (`passages[1:3]`), comma-joined, when any exist. -/
def relatedSuffix (rest : List Passage) : List Char :=
  if rest = [] then []
  else relatedPrefix ++
    joinWith ((", ").data)
      ((rest.take 2).map (fun p => build_citation p.chapter p.verse))

/-- Assembly of the extractive answer text from the chosen sentence, the
best passage and the remaining passages. -/
def composedAnswer (sentence : List Char) (best : Passage)
    (rest : List Passage) : List Char :=
  teachesPrefix ++ sentence ++ ' ' :: build_citation best.chapter best.verse
    ++ relatedSuffix rest

/-- Model of `GitaAnswerer.extractive_answer` (src/rag/answer.py): with
no passages, the fixed message; otherwise split the top passage's text
into sentences, pick the first best-scoring stripped sentence of length
at least 20 (strict improvement scan), fall back to the text up to the
first period, and compose the answer with the best passage's citation
plus a related-guidance line when further passages exist. -/
def extractive_answer (query : List Char) (passages : List Passage) : List Char :=
  match passages with
  | [] => noVersesMsg
  | best :: rest =>
    let pick := bestLoop query (splitRuns isSentPunct best.text) ([], 0)
    let best_sentence := if pick.1 = [] then fallbackSentence best.text else pick.1
    composedAnswer best_sentence best rest

/-- Context block assembled by `generate_answer`: `"{citation} {text}"`
per passage, blank-line separated. -/
def contextBlock (passages : List Passage) : List Char :=
  joinWith (("\n\n").data)
    (passages.map (fun p => build_citation p.chapter p.verse ++ ' ' :: p.text))

/-- Model of `GitaAnswerer.generate_answer` (src/rag/answer.py).  The
three generation backends (Gemini, OpenAI, Ollama) are external
services; each is passed in as an opaque function from (query, context)
to an optional answer, `none` standing for every unavailable /
misconfigured / failing call (the source returns Python `None` in all
those cases).  A backend answer is used only when truthy (non-empty);
everything else falls through to the extractive answer. -/
def generate_answer (gemini openai ollama : List Char → List Char → Option (List Char))
    (query : List Char) (passages : List Passage) (model_type : List Char) : List Char :=
  if passages = [] then noVersesMsg
  else
    let context := contextBlock passages
    if model_type = ("gemini").data then
      match gemini query context with
      | some a => if a = [] then extractive_answer query passages else a
      | none => extractive_answer query passages
    else if model_type = ("openai").data then
      match openai query context with
      | some a => if a = [] then extractive_answer query passages else a
      | none => extractive_answer query passages
    else if model_type = ("ollama").data then
      match ollama query context with
      | some a => if a = [] then extractive_answer query passages else a
      | none => extractive_answer query passages
    else extractive_answer query passages

/-- The report dict returned by `validate_answer`. -/
structure ValidationReport where
  valid : Bool
  invalid_citations : List (List Char)
  answer_citations : List (List Char)
  passage_citations : List (List Char)
  deriving DecidableEq

/-- Model of `GitaAnswerer.validate_answer` (src/rag/answer.py): the set
of citations extracted from the answer minus the set of citations of
the supplied passages; the answer is valid when that difference is
empty.  Python sets are modelled as deduplicated lists. -/
def validate_answer (answer : List Char) (passages : List Passage) :
    ValidationReport :=
  let answer_citations := (extract_citations_from_text answer).dedup
  let passage_citations :=
    (passages.map (fun p => build_citation p.chapter p.verse)).dedup
  let invalid := answer_citations.filter (fun c => !(passage_citations.contains c))
  { valid := invalid.isEmpty, invalid_citations := invalid,
    answer_citations := answer_citations, passage_citations := passage_citations }

/-! ### Substring characterization, for the safety filter -/

theorem startsWithIff (n : List Char) : ∀ h : List Char,
    startsWith n h = true ↔ ∃ t, h = n ++ t := by
  induction n with
  | nil => intro h; simp [startsWith]
  | cons a as ih =>
    intro h
    cases h with
    | nil => simp [startsWith]
    | cons b bs =>
      simp only [startsWith, Bool.and_eq_true, beq_iff_eq, ih]
      constructor
      · rintro ⟨rfl, t, rfl⟩
        exact ⟨t, rfl⟩
      · rintro ⟨t, ht⟩
        injection ht with h1 h2
        exact ⟨h1.symm, t, h2⟩

theorem occursInIff (n : List Char) : ∀ h : List Char,
    occursIn n h = true ↔ ∃ pre post, h = pre ++ (n ++ post) := by
  intro h
  induction h with
  | nil =>
    simp only [occursIn, List.isEmpty_iff]
    constructor
    · rintro rfl; exact ⟨[], [], rfl⟩
    · rintro ⟨pre, post, hp⟩
      rcases List.append_eq_nil.mp hp.symm with ⟨h1, h2⟩
      exact (List.append_eq_nil.mp h2).1
  | cons c cs ih =>
    simp only [occursIn, Bool.or_eq_true, startsWithIff, ih]
    constructor
    · rintro (⟨t, ht⟩ | ⟨pre, post, hp⟩)
      · exact ⟨[], t, by simp [ht]⟩
      · exact ⟨c :: pre, post, by simp [hp]⟩
    · rintro ⟨pre, post, hp⟩
      cases pre with
      | nil => exact Or.inl ⟨post, by simpa using hp⟩
      | cons d pre' =>
        injection hp with h1 h2
        exact Or.inr ⟨pre', post, h2⟩

/-- C9: for every query string, safety_check returns False exactly when
some keyword from the fixed medical or legal keyword lists occurs as a
case-insensitive substring of the query, and True otherwise; in
particular safety_check("What medicine should I take?") is False and
safety_check("How do I focus on my duty?") is True. -/
theorem claim_C9_safety_check :
    (∀ query : List Char,
      safety_check query = false ↔
        ∃ kw ∈ medical_keywords ++ legal_keywords,
          ∃ pre post, asciiLower query = pre ++ (kw ++ post))
    ∧ safety_check (("What medicine should I take?").data) = false
    ∧ safety_check (("How do I focus on my duty?").data) = true := by
  refine ⟨?_, by decide, by decide⟩
  intro query
  simp only [safety_check, Bool.not_eq_false', List.any_eq_true, occursInIff]

/-- A concrete corpus document used by concrete instances below. -/
def docA : Doc :=
  ⟨("02.47").data, 2, 47,
   ("Do your duty without attachment to the fruits of action.").data, none⟩

/-- C8: for every (chapter, verse) pair present in the corpus,
get_verse_by_citation returns a result with score = 1.0 whose chapter,
verse, id, text and sanskrit fields match the stored verse; for every
pair not present, it returns the not-found sentinel. -/
theorem claim_C8_get_verse_by_citation : ∀ (docs : List Doc) (c v : Nat),
    ((∃ d ∈ docs, d.chapter = c ∧ d.verse = v) →
      ∃ d ∈ docs, d.chapter = c ∧ d.verse = v ∧
        get_verse_by_citation docs (c : Int) (v : Int) =
          some { id := d.id, chapter := d.chapter, verse := d.verse,
                 text := d.text, sanskrit := d.sanskrit, score := 1, rank := 1 })
    ∧ ((∀ d ∈ docs, ¬(d.chapter = c ∧ d.verse = v)) →
      get_verse_by_citation docs (c : Int) (v : Int) = none) := by
  intro docs c v
  constructor
  · rintro ⟨d0, hmem, hc, hv⟩
    cases hfind : docs.find?
        (fun d => (d.chapter : Int) == (c : Int) && (d.verse : Int) == (v : Int)) with
    | none =>
      rw [List.find?_eq_none] at hfind
      have hcontra := hfind d0 hmem
      simp only [Bool.and_eq_true, beq_iff_eq, Nat.cast_inj, not_and] at hcontra
      exact absurd hv (hcontra hc)
    | some d =>
      have hp := List.find?_some hfind
      have hm := List.mem_of_find?_eq_some hfind
      simp only [Bool.and_eq_true, beq_iff_eq, Nat.cast_inj] at hp
      refine ⟨d, hm, hp.1, hp.2, ?_⟩
      unfold get_verse_by_citation
      rw [hfind]
  · intro hnone
    unfold get_verse_by_citation
    rw [List.find?_eq_none.mpr]
    intro d hd
    simp only [Bool.and_eq_true, beq_iff_eq, Nat.cast_inj, not_and]
    intro h1
    exact fun h2 => hnone d hd ⟨by exact_mod_cast h1, by exact_mod_cast h2⟩

/-- Witness for C8: in a one-document corpus holding verse 2.47, the
lookup succeeds with score 1 and matching fields. -/
theorem claim_C8_witness :
    ∃ d ∈ [docA], d.chapter = 2 ∧ d.verse = 47 ∧
      get_verse_by_citation [docA] (2 : Int) (47 : Int) =
        some { id := d.id, chapter := d.chapter, verse := d.verse,
               text := d.text, sanskrit := d.sanskrit, score := 1, rank := 1 } :=
  (claim_C8_get_verse_by_citation [docA] 2 47).1
    ⟨docA, by simp, rfl, rfl⟩

/-- C2: for every query and every non-empty passage list, when the
generation backend for a non-extractive mode is unavailable (its call
yields no text), generate_answer with that mode returns exactly the
same string as generate_answer with mode "extractive" on identical
input. -/
theorem claim_C2_backend_unavailable_fallback :
    ∀ (gem opa oll : List Char → List Char → Option (List Char))
    (query : List Char) (passages : List Passage), passages ≠ [] →
    ((∀ ctx, gem query ctx = none ∨ gem query ctx = some []) →
      generate_answer gem opa oll query passages (("gemini").data)
        = generate_answer gem opa oll query passages (("extractive").data))
    ∧ ((∀ ctx, opa query ctx = none ∨ opa query ctx = some []) →
      generate_answer gem opa oll query passages (("openai").data)
        = generate_answer gem opa oll query passages (("extractive").data))
    ∧ ((∀ ctx, oll query ctx = none ∨ oll query ctx = some []) →
      generate_answer gem opa oll query passages (("ollama").data)
        = generate_answer gem opa oll query passages (("extractive").data)) := by
  intro gem opa oll q ps hne
  refine ⟨?_, ?_, ?_⟩ <;> intro hb <;>
    simp only [generate_answer, if_neg hne] <;>
    rcases hb (contextBlock ps) with h | h <;> simp [h]

/-- A concrete passage used by concrete instances below. -/
def passA : Passage :=
  ⟨2, 47, ("Do your duty without attachment to the fruits of action.").data⟩

/-- Witness for C2: with all three backends returning nothing and a
one-passage list, mode "gemini" and mode "extractive" coincide. -/
theorem claim_C2_witness :
    generate_answer (fun _ _ => none) (fun _ _ => none) (fun _ _ => none)
        (("how should I act").data) [passA] (("gemini").data)
      = generate_answer (fun _ _ => none) (fun _ _ => none) (fun _ _ => none)
        (("how should I act").data) [passA] (("extractive").data) :=
  (claim_C2_backend_unavailable_fallback _ _ _ _ [passA] (by simp)).1
    (fun _ => Or.inl rfl)

/-- C10: for every query and non-empty passage list, generate_answer
called with a model_type that is none of the recognized modes silently
returns the extractive answer instead of raising an unknown-mode
error. -/
theorem claim_C10_unknown_mode_extractive :
    ∀ (gem opa oll : List Char → List Char → Option (List Char))
    (query : List Char) (passages : List Passage) (model_type : List Char),
    passages ≠ [] →
    model_type ≠ ("gemini").data → model_type ≠ ("openai").data →
    model_type ≠ ("ollama").data →
    generate_answer gem opa oll query passages model_type
      = extractive_answer query passages := by
  intro gem opa oll q ps m hne h1 h2 h3
  simp only [generate_answer, if_neg hne, if_neg h1, if_neg h2, if_neg h3]

/-- Witness for C10: the unrecognized mode "llama2" yields the
extractive answer. -/
theorem claim_C10_witness :
    generate_answer (fun _ _ => none) (fun _ _ => none) (fun _ _ => none)
        (("how should I act").data) [passA] (("llama2").data)
      = extractive_answer (("how should I act").data) [passA] :=
  claim_C10_unknown_mode_extractive _ _ _ _ [passA] _
    (by simp) (by decide) (by decide) (by decide)

/-- The score floor 0.1 of `search`, as a rational. -/
theorem scoreFloorEq : (mkRat 1 10 : ℚ) = 1/10 := by norm_num

theorem searchHitScore (docs : List Doc) (pair : Nat × (ℚ × Int)) (r : SearchResult)
    (h : searchHit docs pair = some r) : r.score = pair.2.1 ∧ ¬(pair.2.1 < 1/10) := by
  unfold searchHit at h
  rw [scoreFloorEq] at h
  split at h
  · exact absurd h (by simp)
  · split at h
    · exact absurd h (by simp)
    · rename_i hlt
      cases hg : docs.get? pair.2.2.toNat with
      | none => rw [hg] at h; exact absurd h (by simp)
      | some d =>
        rw [hg] at h
        simp only [Option.map_some'] at h
        have := Option.some.inj h
        exact ⟨by rw [← this], hlt⟩

theorem enumFilterMapScoresSub (docs : List Doc) (raw : List (ℚ × Int)) : ∀ n : Nat,
    ((((List.enumFrom n raw).filterMap (searchHit docs)).map (fun r => r.score))).Sublist
      (raw.map Prod.fst) := by
  induction raw with
  | nil => intro n; simp
  | cons p rest ih =>
    intro n
    simp only [List.enumFrom, List.filterMap_cons, List.map_cons]
    cases hh : searchHit docs (n, p) with
    | none => exact (ih (n + 1)).cons _
    | some r =>
      rw [List.map_cons]
      have hs := (searchHitScore docs (n, p) r hh).1
      rw [hs]
      exact (ih (n + 1)).cons₂ _

theorem searchScoresSub (docs : List Doc) (raw : List (ℚ × Int)) (q : List Char)
    (k : Option Nat) :
    (((search docs raw q k).map (fun r => r.score))).Sublist (raw.map Prod.fst) := by
  unfold search
  split
  · simp
  · cases k with
    | none => exact enumFilterMapScoresSub docs raw 0
    | some n =>
      simp only
      exact ((List.take_sublist _ _).map _).trans (enumFilterMapScoresSub docs raw 0)

/-- C4 (amended): every result returned by search has score >= 0.1, and
whenever the underlying index returns its raw hits in descending
(non-increasing) score order, the returned sequence is in descending
(non-increasing, ties possible) score order; for every empty or
whitespace-only query, search returns an empty sequence.  (The original
claim's strictly-descending order fails on tied scores, see the
counterexample.) -/
theorem claim_C4_amended_search_order : ∀ (docs : List Doc) (raw : List (ℚ × Int))
    (query : List Char) (k : Option Nat),
    (∀ r ∈ search docs raw query k, 1/10 ≤ r.score)
    ∧ (List.Pairwise (fun a b : ℚ => b ≤ a) (raw.map Prod.fst) →
        List.Pairwise (fun a b : ℚ => b ≤ a)
          ((search docs raw query k).map (fun r => r.score)))
    ∧ (pyStrip query = [] → search docs raw query k = []) := by
  intro docs raw q k
  refine ⟨?_, ?_, ?_⟩
  · intro r hr
    have hr' : r ∈ raw.enum.filterMap (searchHit docs) := by
      unfold search at hr
      split at hr
      · simp at hr
      · cases k with
        | none => exact hr
        | some n => exact List.take_subset _ _ hr
    rw [List.mem_filterMap] at hr'
    obtain ⟨pair, _, hp⟩ := hr'
    have := searchHitScore docs pair r hp
    rw [this.1]
    exact le_of_not_lt this.2
  · intro hsorted
    exact hsorted.sublist (searchScoresSub docs raw q k)
  · intro hq
    unfold search
    rw [if_pos hq]

def docTie1 : Doc := ⟨("01.01").data, 1, 1, ("text one").data, none⟩
def docTie2 : Doc := ⟨("01.02").data, 1, 2, ("text two").data, none⟩

/-- Counterexample to C4 as stated: an index state with two distinct
verses at the same similarity score yields a search result sequence
whose scores are [1, 1], which is not strictly descending. -/
theorem claim_C4_counterexample :
    (search [docTie1, docTie2] [(1, 0), (1, 1)] (("love").data) none).map
        (fun r => r.score) = [1, 1]
    ∧ ¬ List.Pairwise (fun a b : ℚ => a > b) [(1 : ℚ), 1] := by
  constructor
  · decide
  · decide

/-- Witness for the amended C4: on a concrete sorted raw hit list the
returned scores are in non-increasing order. -/
theorem claim_C4_witness :
    List.Pairwise (fun a b : ℚ => b ≤ a)
      ((search [docTie1, docTie2] [(1, 0), (1, 1)] (("love").data) none).map
        (fun r => r.score)) :=
  (claim_C4_amended_search_order [docTie1, docTie2] [(1, 0), (1, 1)] (("love").data) none).2.1
    (by decide)

/-- C3: for every query, search_best_answer returns the empty sentinel
when no result passes the score floor; otherwise its best_verse is the
rank-1 search result, context_verses are the results of ranks 2-5 (at
most 4, excluding the best), confidence equals best_verse's score,
total_matches equals the count of all floor-passing results, and
total_matches >= 1 + length of context_verses. -/
theorem claim_C3_best_answer_bundle : ∀ (docs : List Doc) (raw : List (ℚ × Int))
    (query : List Char),
    (search docs raw query none = [] → search_best_answer docs raw query = none)
    ∧ (∀ r rs, search docs raw query none = r :: rs →
        search_best_answer docs raw query =
          some { best_verse := r, context_verses := rs.take 4,
                 total_matches := (r :: rs).length, confidence := r.score }
        ∧ 1 + (rs.take 4).length ≤ (r :: rs).length) := by
  intro docs raw q
  by_cases hq : pyStrip q = []
  · constructor
    · intro _
      unfold search_best_answer
      rw [if_pos hq]
    · intro r rs hsearch
      exfalso
      unfold search at hsearch
      rw [if_pos hq] at hsearch
      exact absurd hsearch (by simp)
  · constructor
    · intro hs
      unfold search_best_answer
      rw [if_neg hq, hs]
    · intro r rs hsearch
      constructor
      · unfold search_best_answer
        rw [if_neg hq, hsearch]
      · simp only [List.length_take, List.length_cons]
        omega

/-- Witness for C3: on a concrete corpus and raw hit list the bundle is
built from the head result with one context verse. -/
theorem claim_C3_witness :
    search_best_answer [docTie1, docTie2] [(1, 0), (1, 1)] (("love").data) =
      some { best_verse := ⟨("01.01").data, 1, 1, ("text one").data, none, 1, 1⟩,
             context_verses := [⟨("01.02").data, 1, 2, ("text two").data, none, 1, 2⟩],
             total_matches := 2, confidence := 1 } :=
  (((claim_C3_best_answer_bundle [docTie1, docTie2] [(1, 0), (1, 1)] (("love").data)).2
    ⟨("01.01").data, 1, 1, ("text one").data, none, 1, 1⟩
    [⟨("01.02").data, 1, 2, ("text two").data, none, 1, 2⟩])
    (by decide)).1

/-- Counterexample to C7 as stated: the bracket-less string "2.47" is
not of the exact textual form [chapter.verse], yet on a corpus holding
verse 2.47 it is reported as existing, with verse data attached:
`strip('[]')` never checks that brackets were present. -/

theorem claim_C7_counterexample :
    citationShaped (("2.47").data) = false
    ∧ (validate_citations [docA] [("2.47").data]).map (fun r => r.exists_) = [true]
    ∧ (validate_citations [docA] [("2.47").data]).map
        (fun r => r.verse_data.isSome) = [true] := by
  refine ⟨by decide, by decide, by decide⟩

/-- C7 (amended): validate_citations never raises (it is total and
returns one report per input string), and every string whose
bracket-stripped core fails to parse as two dot-separated Python ints
is reported as non-existent with no verse data; for strings that do
parse, existence is exactly corpus membership of the parsed pair.
(Bracket shape itself is not validated, see the counterexample.) -/
theorem claim_C7_amended : ∀ (docs : List Doc) (citations : List (List Char)),
    (validate_citations docs citations).length = citations.length
    ∧ ∀ r ∈ validate_citations docs citations,
        (parseCitation r.citation = none → r.exists_ = false ∧ r.verse_data = none)
        ∧ (∀ ch v : Int, parseCitation r.citation = some (ch, v) →
            r.exists_ = (get_verse_by_citation docs ch v).isSome
            ∧ r.verse_data = get_verse_by_citation docs ch v) := by
  intro docs cs
  refine ⟨by simp [validate_citations], ?_⟩
  intro r hr
  rw [validate_citations, List.mem_map] at hr
  obtain ⟨c, _, hrep⟩ := hr
  cases hp : parseCitation c with
  | none =>
    rw [hp] at hrep
    subst hrep
    constructor
    · intro _
      exact ⟨rfl, rfl⟩
    · intro ch v hsome
      exact absurd (hp ▸ hsome) (by simp)
  | some pr =>
    rw [hp] at hrep
    subst hrep
    constructor
    · intro hnone
      exact absurd (hp ▸ hnone) (by simp)
    · intro ch v hsome
      rw [hp] at hsome
      obtain rfl := Option.some.inj hsome
      exact ⟨rfl, rfl⟩

/-- Witness for the amended C7: the unparseable string "oops" is
reported as non-existent with no verse data. -/
theorem claim_C7_witness :
    ∃ r ∈ validate_citations [docA] [("oops").data],
      r.exists_ = false ∧ r.verse_data = none :=
  ⟨⟨("oops").data, false, none⟩, by decide,
    ((claim_C7_amended [docA] [("oops").data]).2 _ (by decide)).1 (by decide)⟩

/-- The stripped length-20 sentences among an arbitrary sentence list. -/
def eligOf (sentences : List (List Char)) : List (List Char) :=
  (sentences.map pyStrip).filter (fun s => 20 ≤ s.length)

theorem eligSentencesEq (text : List Char) :
    eligSentences text = eligOf (splitRuns isSentPunct text) := rfl

theorem eligOfCons (s : List Char) (rest : List (List Char)) :
    eligOf (s :: rest) =
      if 20 ≤ (pyStrip s).length then pyStrip s :: eligOf rest else eligOf rest := by
  simp only [eligOf, List.map_cons, List.filter_cons]
  split
  · rename_i hc
    rw [if_pos (by simpa using hc)]
  · rename_i hc
    rw [if_neg (by simpa using hc)]

theorem bestLoopStay (q : List Char) : ∀ (sents : List (List Char)) (acc : List Char × Nat),
    (∀ t ∈ eligOf sents, overlapScore q t ≤ acc.2) → bestLoop q sents acc = acc := by
  intro sents
  induction sents with
  | nil => intro acc _; rfl
  | cons s0 rest ih =>
    intro acc hle
    rw [eligOfCons] at hle
    by_cases hlen : (pyStrip s0).length < 20
    · rw [if_neg (by omega)] at hle
      show bestLoop q (s0 :: rest) acc = acc
      unfold bestLoop
      rw [if_pos hlen]
      exact ih acc hle
    · rw [if_pos (by omega)] at hle
      have hs0 : overlapScore q (pyStrip s0) ≤ acc.2 := hle _ (List.mem_cons_self _ _)
      unfold bestLoop
      rw [if_neg hlen, if_neg (by omega)]
      exact ih acc (fun t ht => hle t (List.mem_cons_of_mem _ ht))

theorem bestLoopFirstMax (q : List Char) : ∀ (sents : List (List Char)) (acc : List Char × Nat),
    (∃ t ∈ eligOf sents, acc.2 < overlapScore q t) →
    ∃ pre s post, eligOf sents = pre ++ s :: post
      ∧ acc.2 < overlapScore q s
      ∧ (∀ t ∈ pre, overlapScore q t < overlapScore q s)
      ∧ (∀ t ∈ post, overlapScore q t ≤ overlapScore q s)
      ∧ bestLoop q sents acc = (s, overlapScore q s) := by
  intro sents
  induction sents with
  | nil => rintro acc ⟨t, ht, _⟩; simp [eligOf] at ht
  | cons s0 rest ih =>
    intro acc hex
    by_cases hlen : (pyStrip s0).length < 20
    · have helig : eligOf (s0 :: rest) = eligOf rest := by
        rw [eligOfCons, if_neg (by omega)]
      rw [helig] at hex
      obtain ⟨pre, s, post, heq, h1, h2, h3, h4⟩ := ih acc hex
      refine ⟨pre, s, post, by rw [helig, heq], h1, h2, h3, ?_⟩
      unfold bestLoop
      rw [if_pos hlen]
      exact h4
    · have helig : eligOf (s0 :: rest) = pyStrip s0 :: eligOf rest := by
        rw [eligOfCons, if_pos (by omega)]
      by_cases hcmp : acc.2 < overlapScore q (pyStrip s0)
      · by_cases h2 : ∃ t ∈ eligOf rest,
            overlapScore q (pyStrip s0) < overlapScore q t
        · obtain ⟨pre, s, post, heq, hlt, hpre, hpost, hres⟩ :=
            ih (pyStrip s0, overlapScore q (pyStrip s0)) h2
          refine ⟨pyStrip s0 :: pre, s, post, by rw [helig, heq]; rfl, ?_, ?_, hpost, ?_⟩
          · omega
          · intro t ht
            rcases List.mem_cons.mp ht with rfl | ht'
            · exact hlt
            · exact hpre t ht'
          · unfold bestLoop
            rw [if_neg hlen, if_pos hcmp]
            exact hres
        · push_neg at h2
          refine ⟨[], pyStrip s0, eligOf rest, by rw [helig]; rfl, hcmp,
            by intro t ht; simp at ht, h2, ?_⟩
          unfold bestLoop
          rw [if_neg hlen, if_pos hcmp]
          exact bestLoopStay q rest _ h2
      · have hex' : ∃ t ∈ eligOf rest, acc.2 < overlapScore q t := by
          rw [helig] at hex
          obtain ⟨t, ht, hts⟩ := hex
          rcases List.mem_cons.mp ht with rfl | ht'
          · omega
          · exact ⟨t, ht', hts⟩
        obtain ⟨pre, s, post, heq, h1, hpre, hpost, hres⟩ := ih acc hex'
        refine ⟨pyStrip s0 :: pre, s, post, by rw [helig, heq]; rfl, h1, ?_, hpost, ?_⟩
        · intro t ht
          rcases List.mem_cons.mp ht with rfl | ht'
          · omega
          · exact hpre t ht'
        · unfold bestLoop
          rw [if_neg hlen, if_neg hcmp]
          exact hres


/-- C5: for every query and non-empty passage list, extractive_answer
takes the top passage, splits its text on sentence-ending punctuation,
scores each (stripped) sentence of length >= 20 by the size of the
intersection of its lowercase word set with the lowercase query word
set, picks the highest-scoring sentence with the first one winning ties
(strict-greater comparison in scan order), falls back to the text up to
the first period when no sentence scores above zero, and returns
"The Bhagavad Gita teaches: {sentence} {citation}", appending a
"Related guidance" line citing passages 2-3 when at least 2 passages
were supplied; for an empty passage list it returns the fixed
could-not-find message, never an error. -/
theorem claim_C5_extractive_algorithm :
    ∀ (query : List Char) (best : Passage) (rest : List Passage),
    extractive_answer query [] = noVersesMsg
    ∧ ((∀ t ∈ eligSentences best.text, overlapScore query t = 0) →
        extractive_answer query (best :: rest)
          = composedAnswer (fallbackSentence best.text) best rest)
    ∧ ((∃ t ∈ eligSentences best.text, 0 < overlapScore query t) →
        ∃ pre s post, eligSentences best.text = pre ++ s :: post
          ∧ 0 < overlapScore query s
          ∧ (∀ t ∈ pre, overlapScore query t < overlapScore query s)
          ∧ (∀ t ∈ post, overlapScore query t ≤ overlapScore query s)
          ∧ extractive_answer query (best :: rest) = composedAnswer s best rest) := by
  intro query best rest
  refine ⟨rfl, ?_, ?_⟩
  · intro hz
    have hstay : bestLoop query (splitRuns isSentPunct best.text) ([], 0) = ([], 0) := by
      refine bestLoopStay query _ _ ?_
      intro t ht
      rw [← eligSentencesEq] at ht
      exact Nat.le_of_eq (hz t ht)
    simp only [extractive_answer, hstay]
    simp
  · intro hex
    rw [eligSentencesEq] at hex
    obtain ⟨pre, s, post, heq, h1, hpre, hpost, hres⟩ :=
      bestLoopFirstMax query (splitRuns isSentPunct best.text) ([], 0) hex
    have hsne : s ≠ [] := by
      have hmem : s ∈ eligOf (splitRuns isSentPunct best.text) := by
        rw [heq]
        exact List.mem_append_right _ (List.mem_cons_self _ _)
      have := List.of_mem_filter hmem
      intro hnil
      rw [hnil] at this
      simp at this
    refine ⟨pre, s, post, by rw [eligSentencesEq, heq], h1, hpre, hpost, ?_⟩
    simp only [extractive_answer, hres]
    rw [if_neg hsne]

/-- Witness for C5: on a query sharing no word with the single passage,
the fallback sentence (text up to the first period) is used. -/
theorem claim_C5_witness :
    extractive_answer (("karma").data) [passA]
      = composedAnswer (fallbackSentence passA.text) passA [] :=
  (claim_C5_extractive_algorithm (("karma").data) passA []).2.1 (by
    simp +decide [eligSentences, splitRuns, passA, pyStrip, stripChars,
      List.rdropWhile, overlapScore, pyWords, asciiLower, asciiLowerChar])

/-- Head-is-a-digit test for the scanner analysis. -/
def headDig (l : List Char) : Bool :=
  match l with
  | [] => false
  | c :: _ => isDig c

/-- Head-is-this-character test for the scanner analysis. -/
def headIsChar (x : Char) (l : List Char) : Bool :=
  match l with
  | [] => false
  | c :: _ => c == x

theorem digitCharDig (d : Nat) (hd : d < 10) : isDig (digitChar d) = true := by
  interval_cases d <;> decide

theorem natToDigitsNeNil (n : Nat) : natToDigits n ≠ [] := by
  unfold natToDigits
  split <;> simp

theorem natToDigitsDig (n : Nat) : ∀ c ∈ natToDigits n, isDig c = true := by
  induction n using natToDigits.induct with
  | case1 n h =>
    rw [natToDigits, if_pos h]
    intro c hc
    rw [List.mem_singleton] at hc
    rw [hc]
    exact digitCharDig n h
  | case2 n h ih =>
    rw [natToDigits, if_neg h]
    intro c hc
    rcases List.mem_append.mp hc with h1 | h1
    · exact ih c h1
    · rw [List.mem_singleton] at h1
      rw [h1]
      exact digitCharDig _ (Nat.mod_lt _ (by omega))

theorem dwNotHead (p : Char → Bool) (l : List Char) (h : ∀ c t, l = c :: t → p c = false) :
    l.dropWhile p = l := by
  cases l with
  | nil => rfl
  | cons c t => rw [List.dropWhile_cons, if_neg (by simp [h c t rfl])]

theorem twNotHead (p : Char → Bool) (l : List Char) (h : ∀ c t, l = c :: t → p c = false) :
    l.takeWhile p = [] := by
  cases l with
  | nil => rfl
  | cons c t => rw [List.takeWhile_cons, if_neg (by simp [h c t rfl])]

theorem dwHeadFalse (p : Char → Bool) : ∀ (l : List Char) (e : Char) (t : List Char),
    l.dropWhile p = e :: t → p e = false := by
  intro l
  induction l with
  | nil => intro e t h; exact absurd h (by simp)
  | cons c cs ih =>
    intro e t h
    rw [List.dropWhile_cons] at h
    split at h
    · exact ih e t h
    · rename_i hc
      injection h with h1 _
      rw [← h1]
      simpa using hc

theorem twDigitsBlock : ∀ (a b : List Char), (∀ c ∈ a, isDig c = true) →
    (∀ x t, b = x :: t → isDig x = false) →
    (a ++ b).takeWhile isDig = a ∧ (a ++ b).dropWhile isDig = b := by
  intro a
  induction a with
  | nil =>
    intro b _ hb
    exact ⟨twNotHead _ b hb, dwNotHead _ b hb⟩
  | cons c cs ih =>
    intro b ha hb
    have hc : isDig c = true := ha c (List.mem_cons_self _ _)
    have := ih b (fun d hd => ha d (List.mem_cons_of_mem _ hd)) hb
    constructor
    · rw [List.cons_append, List.takeWhile_cons, if_pos hc, this.1]
    · rw [List.cons_append, List.dropWhile_cons, if_pos hc, this.2]

/-- A successful match of the citation regex right after an opening
bracket, on a well-shaped input. -/
theorem tryCiteCite (c v : Nat) (rest : List Char) :
    tryCite (natToDigits c ++ '.' :: (natToDigits v ++ ']' :: rest))
      = some (build_citation c v, rest) := by
  have h1 := twDigitsBlock (natToDigits c) ('.' :: (natToDigits v ++ ']' :: rest))
    (natToDigitsDig c) (by intro x t h; injection h with h1 _; rw [← h1]; rfl)
  have h2 := twDigitsBlock (natToDigits v) (']' :: rest)
    (natToDigitsDig v) (by intro x t h; injection h with h1 _; rw [← h1]; rfl)
  unfold tryCite
  rw [h1.2]
  simp only []
  rw [h2.2]
  simp only []
  rw [h1.1, h2.1, if_neg (by simp [natToDigitsNeNil])]
  rfl

theorem noDotHdot (a b : List Char) (h : '.' ∉ a) :
    ∀ α β, a = α ++ '.' :: β → headDig (β ++ b) = false := by
  intro α β heq
  exfalso
  exact h (heq ▸ List.mem_append_right α (List.mem_cons_self _ _))

theorem lastDotOnly : ∀ (l : List Char) (x : Char), x ∉ l →
    ∀ α β, l ++ [x] = α ++ x :: β → β = [] := by
  intro l
  induction l with
  | nil =>
    intro x _ α β h
    cases α with
    | nil =>
      injection h with _ h2
      exact h2.symm
    | cons a α' =>
      injection h with _ h2
      exact absurd (congrArg List.length h2) (by simp; omega)
  | cons c l' ih =>
    intro x hx α β h
    cases α with
    | nil =>
      injection h with h1 _
      exact absurd (h1 ▸ List.mem_cons_self c l') hx
    | cons a α' =>
      injection h with _ h2
      exact ih x (fun hm => hx (List.mem_cons_of_mem _ hm)) α' β h2

/-- The citation scanner finds nothing inside a block that cannot host
a digit right after any of its dots and that is followed by input
starting with neither a digit nor a dot. -/
theorem tryCiteNone (a b : List Char)
    (hdot : ∀ α β, a = α ++ '.' :: β → headDig (β ++ b) = false)
    (hb1 : headDig b = false) (hb2 : headIsChar '.' b = false) :
    tryCite (a ++ b) = none := by
  by_cases hall : ∀ c ∈ a, isDig c = true
  · have hbn : ∀ x t, b = x :: t → isDig x = false := by
      intro x t hxt
      rw [hxt] at hb1
      simpa [headDig] using hb1
    have h := twDigitsBlock a b hall hbn
    unfold tryCite
    rw [h.2]
    cases b with
    | nil => rfl
    | cons x t =>
      have hx : (x == '.') = false := by simpa [headIsChar] using hb2
      split
      · rename_i r2 heq
        injection heq with h1 _
        rw [h1] at hx
        simp at hx
      · rfl
  · have hne : a.dropWhile isDig ≠ [] := by
      intro hnil
      rw [List.dropWhile_eq_nil_iff] at hnil
      exact hall hnil
    obtain ⟨e, t, het⟩ : ∃ e t, a.dropWhile isDig = e :: t := by
      cases hd : a.dropWhile isDig with
      | nil => exact absurd hd hne
      | cons e t => exact ⟨e, t, rfl⟩
    have hedig : isDig e = false := dwHeadFalse _ a e t het
    have hsplit : a = a.takeWhile isDig ++ e :: t := by
      rw [← het, List.takeWhile_append_dropWhile]
    have hdwab : (a ++ b).dropWhile isDig = e :: (t ++ b) := by
      conv_lhs => rw [hsplit]
      rw [List.append_assoc, List.cons_append]
      have := twDigitsBlock (a.takeWhile isDig) (e :: (t ++ b))
        (fun c hc => List.mem_takeWhile_imp hc)
        (by intro x u h; injection h with h1 _; rw [← h1]; exact hedig)
      exact this.2
    by_cases he : e = '.'
    · subst he
      have hhd := hdot (a.takeWhile isDig) t hsplit
      have hnd : ∀ x u, t ++ b = x :: u → isDig x = false := by
        intro x u hx
        rw [hx] at hhd
        simpa [headDig] using hhd
      have htw : (t ++ b).takeWhile isDig = [] := twNotHead _ _ hnd
      have hdw : (t ++ b).dropWhile isDig = t ++ b := dwNotHead _ _ hnd
      unfold tryCite
      rw [hdwab]
      simp only []
      rw [hdw]
      split
      · rename_i r3 heq
        rw [if_pos (by simp [htw])]
      · rfl
    · unfold tryCite
      rw [hdwab]
      split
      · rename_i r2 heq
        injection heq with h1 _
        exact absurd h1 he
      · rfl


theorem extractNil : extract_citations_from_text [] = [] := by
  rw [extract_citations_from_text]

theorem extractConsNoBr (c : Char) (rest : List Char) (hc : c ≠ '[') :
    extract_citations_from_text (c :: rest) = extract_citations_from_text rest := by
  rw [extract_citations_from_text, if_neg hc]

theorem extractConsBrSome (rest : List Char) (p : List Char × List Char)
    (h : tryCite rest = some p) :
    extract_citations_from_text ('[' :: rest)
      = p.1 :: extract_citations_from_text p.2 := by
  rw [extract_citations_from_text, if_pos rfl]
  split
  · rename_i p' hp'
    rw [h] at hp'
    obtain rfl := Option.some.inj hp'
    rfl
  · rename_i hp'
    rw [h] at hp'
    exact absurd hp' (by simp)

theorem extractConsBrNone (rest : List Char) (h : tryCite rest = none) :
    extract_citations_from_text ('[' :: rest) = extract_citations_from_text rest := by
  rw [extract_citations_from_text, if_pos rfl]
  split
  · rename_i p' hp'
    rw [h] at hp'
    exact absurd hp' (by simp)
  · rfl


theorem extractCiteCons (c v : Nat) (rest : List Char) :
    extract_citations_from_text
        ('[' :: (natToDigits c ++ '.' :: (natToDigits v ++ ']' :: rest)))
      = build_citation c v :: extract_citations_from_text rest := by
  rw [extractConsBrSome _ _ (tryCiteCite c v rest)]

/-- The scanner skips a block whose dots can never be followed by a
digit, leaving the scan of the remainder untouched. -/
theorem extractSkip : ∀ (a b : List Char),
    (∀ α β, a = α ++ '.' :: β → headDig (β ++ b) = false) →
    headDig b = false → headIsChar '.' b = false →
    extract_citations_from_text (a ++ b) = extract_citations_from_text b := by
  intro a
  induction a with
  | nil => intro b _ _ _; rfl
  | cons c a' ih =>
    intro b hdot hb1 hb2
    have hdot' : ∀ α β, a' = α ++ '.' :: β → headDig (β ++ b) = false := by
      intro α β heq
      exact hdot (c :: α) β (by rw [heq]; rfl)
    by_cases hc : c = '['
    · subst hc
      rw [List.cons_append,
        extractConsBrNone _ (tryCiteNone a' b hdot' hb1 hb2)]
      exact ih b hdot' hb1 hb2
    · rw [List.cons_append, extractConsNoBr c _ hc]
      exact ih b hdot' hb1 hb2


theorem stripCharsSubset (p : Char → Bool) (l : List Char) :
    ∀ c ∈ stripChars p l, c ∈ l := by
  intro c hc
  have h1 := (List.rdropWhile_prefix p (l := l.dropWhile p)).sublist.subset hc
  exact (List.dropWhile_suffix p).sublist.subset h1

theorem splitRunsNoPunct (p : Char → Bool) : ∀ (l : List Char) (seg : List Char),
    seg ∈ splitRuns p l → ∀ c ∈ seg, p c = false := by
  intro l
  induction l using splitRuns.induct p with
  | case1 =>
    intro seg hseg c hc
    simp [splitRuns] at hseg
    rw [hseg] at hc
    simp at hc
  | case2 c cs hp ih =>
    intro seg hseg d hd
    rw [splitRuns, if_pos hp] at hseg
    rcases List.mem_cons.mp hseg with rfl | hseg'
    · simp at hd
    · exact ih seg hseg' d hd
  | case3 c cs hp hm =>
    intro seg hseg d hd
    rw [splitRuns, if_neg hp, hm] at hseg
    rw [List.mem_singleton] at hseg
    rw [hseg] at hd
    rw [List.mem_singleton] at hd
    rw [hd]
    simpa using hp
  | case4 c cs hp s rest hm ih =>
    intro seg hseg d hd
    rw [splitRuns, if_neg hp, hm] at hseg
    rcases List.mem_cons.mp hseg with rfl | hseg'
    · rcases List.mem_cons.mp hd with rfl | hd'
      · simpa using hp
      · exact ih s (hm ▸ List.mem_cons_self _ _) d hd'
    · exact ih seg (hm ▸ List.mem_cons_of_mem _ hseg') d hd

theorem bestLoopPick (q : List Char) : ∀ (sents : List (List Char)) (acc : List Char × Nat),
    (bestLoop q sents acc).1 = acc.1 ∨
      ∃ t ∈ sents, (bestLoop q sents acc).1 = pyStrip t := by
  intro sents
  induction sents with
  | nil => intro acc; exact Or.inl rfl
  | cons s rest ih =>
    intro acc
    unfold bestLoop
    by_cases h1 : (pyStrip s).length < 20
    · rw [if_pos h1]
      rcases ih acc with h | ⟨t, ht, he⟩
      · exact Or.inl h
      · exact Or.inr ⟨t, List.mem_cons_of_mem _ ht, he⟩
    · rw [if_neg h1]
      by_cases h2 : acc.2 < overlapScore q (pyStrip s)
      · rw [if_pos h2]
        rcases ih (pyStrip s, overlapScore q (pyStrip s)) with h | ⟨t, ht, he⟩
        · exact Or.inr ⟨s, List.mem_cons_self _ _, h⟩
        · exact Or.inr ⟨t, List.mem_cons_of_mem _ ht, he⟩
      · rw [if_neg h2]
        rcases ih acc with h | ⟨t, ht, he⟩
        · exact Or.inl h
        · exact Or.inr ⟨t, List.mem_cons_of_mem _ ht, he⟩

theorem splitOnCharHead (sep : Char) : ∀ l : List Char,
    splitOnChar sep l ≠ [] ∧ sep ∉ (splitOnChar sep l).headD [] := by
  intro l
  induction l with
  | nil => exact ⟨by simp [splitOnChar], by simp [splitOnChar]⟩
  | cons c cs ih =>
    by_cases hc : c = sep
    · subst hc
      constructor
      · rw [splitOnChar, if_pos rfl]
        simp
      · rw [splitOnChar, if_pos rfl]
        simp
    · cases hs : splitOnChar sep cs with
      | nil => exact absurd hs ih.1
      | cons s rest =>
        have hv : splitOnChar sep (c :: cs) = (c :: s) :: rest := by
          rw [splitOnChar, if_neg hc, hs]
        constructor
        · rw [hv]; simp
        · rw [hv]
          simp only [List.headD_cons, List.mem_cons, not_or]
          constructor
          · exact fun h => hc h.symm
          · have := ih.2
            rw [hs] at this
            simpa using this


theorem buildCitationCons (c v : Nat) (r : List Char) :
    build_citation c v ++ r
      = '[' :: (natToDigits c ++ '.' :: (natToDigits v ++ ']' :: r)) := by
  simp [build_citation, List.append_assoc]

theorem joinCitesHead (p0 : Passage) (rest : List Passage) :
    ∃ tail, joinWith ((", ").data)
        ((p0 :: rest).map (fun p => build_citation p.chapter p.verse))
      = '[' :: tail := by
  cases rest with
  | nil => exact ⟨_, rfl⟩
  | cons q t => exact ⟨_, rfl⟩

theorem extractJoinCites : ∀ ps : List Passage,
    extract_citations_from_text
        (joinWith ((", ").data) (ps.map (fun p => build_citation p.chapter p.verse)))
      = ps.map (fun p => build_citation p.chapter p.verse) := by
  intro ps
  induction ps with
  | nil => exact extractNil
  | cons p t ih =>
    cases t with
    | nil =>
      show extract_citations_from_text (build_citation p.chapter p.verse) = _
      have hb : build_citation p.chapter p.verse
          = build_citation p.chapter p.verse ++ [] := by simp
      rw [hb, buildCitationCons, extractCiteCons, extractNil]
      rfl
    | cons q t' =>
      have hJ : joinWith ((", ").data)
            ((p :: q :: t').map (fun r => build_citation r.chapter r.verse))
          = build_citation p.chapter p.verse ++ ((", ").data ++ joinWith ((", ").data)
              ((q :: t').map (fun r => build_citation r.chapter r.verse))) := by
        simp [joinWith, List.append_assoc]
      rw [hJ, buildCitationCons, extractCiteCons]
      obtain ⟨tail, htail⟩ := joinCitesHead q t'
      rw [extractSkip ((", ").data) _ (noDotHdot _ _ (by decide))
        (by rw [htail]; rfl) (by rw [htail]; rfl), ih]
      rfl

theorem extractRelated : ∀ rest : List Passage,
    extract_citations_from_text (relatedSuffix rest)
      = (rest.take 2).map (fun p => build_citation p.chapter p.verse) := by
  intro rest
  cases rest with
  | nil => simpa [relatedSuffix] using extractNil
  | cons q t =>
    rw [relatedSuffix, if_neg (by simp)]
    rw [show (q :: t).take 2 = q :: t.take 1 from rfl]
    obtain ⟨tail, htail⟩ := joinCitesHead q (t.take 1)
    rw [extractSkip relatedPrefix _ (noDotHdot _ _ (by decide))
      (by rw [htail]; rfl) (by rw [htail]; rfl)]
    exact extractJoinCites (q :: t.take 1)

/-- Citation extraction on a composed extractive answer: exactly the
best passage's citation followed by the related-guidance citations. -/
theorem extractComposed (s : List Char) (best : Passage) (rest : List Passage)
    (hs : '.' ∉ s ∨ ∃ w, s = w ++ ['.'] ∧ '.' ∉ w) :
    extract_citations_from_text (composedAnswer s best rest)
      = build_citation best.chapter best.verse ::
          (rest.take 2).map (fun p => build_citation p.chapter p.verse) := by
  have hb1 : ∀ X : List Char,
      headDig (build_citation best.chapter best.verse ++ X) = false := by
    intro X; rw [buildCitationCons]; rfl
  have hb2 : ∀ X : List Char,
      headIsChar '.' (build_citation best.chapter best.verse ++ X) = false := by
    intro X; rw [buildCitationCons]; rfl
  rcases hs with hnd | ⟨w, rfl, hw⟩
  · have hre : composedAnswer s best rest
        = (teachesPrefix ++ s ++ [' ']) ++
            (build_citation best.chapter best.verse ++ relatedSuffix rest) := by
      simp [composedAnswer, List.append_assoc]
    rw [hre]
    have hnodot : '.' ∉ teachesPrefix ++ s ++ [' '] := by
      intro hm
      rcases List.mem_append.mp hm with hm1 | hm2
      · rcases List.mem_append.mp hm1 with h | h
        · exact absurd h (by decide)
        · exact hnd h
      · simp at hm2
    rw [extractSkip _ _ (noDotHdot _ _ hnodot) (hb1 _) (hb2 _)]
    rw [buildCitationCons, extractCiteCons, extractRelated]
  · have hre : composedAnswer (w ++ ['.']) best rest
        = ((teachesPrefix ++ w) ++ ['.']) ++
            (' ' :: (build_citation best.chapter best.verse ++ relatedSuffix rest)) := by
      simp [composedAnswer, List.append_assoc]
    rw [hre]
    have hnodot : '.' ∉ teachesPrefix ++ w := by
      intro hm
      rcases List.mem_append.mp hm with h | h
      · exact absurd h (by decide)
      · exact hw h
    have hdot : ∀ α β, (teachesPrefix ++ w) ++ ['.'] = α ++ '.' :: β →
        headDig (β ++ (' ' :: (build_citation best.chapter best.verse ++
          relatedSuffix rest))) = false := by
      intro α β heq
      have hβ := lastDotOnly (teachesPrefix ++ w) '.' hnodot α β heq
      subst hβ
      rfl
    rw [extractSkip _ _ hdot rfl rfl]
    rw [show (' ' :: (build_citation best.chapter best.verse ++ relatedSuffix rest))
      = [' '] ++ (build_citation best.chapter best.verse ++ relatedSuffix rest) from rfl]
    rw [extractSkip _ _ (noDotHdot _ _ (by decide)) (hb1 _) (hb2 _)]
    rw [buildCitationCons, extractCiteCons, extractRelated]


/-- C1: for every query string and every non-empty passage list, every
citation that appears in the answer returned by extractive_answer is a
citation of one of the supplied passages; equivalently, validate_answer
applied to that answer with the same passage list reports valid = True
and an empty invalid_citations set. -/
theorem claim_C1_extractive_citations_valid :
    ∀ (query : List Char) (passages : List Passage), passages ≠ [] →
    (∀ cit ∈ extract_citations_from_text (extractive_answer query passages),
        ∃ p ∈ passages, cit = build_citation p.chapter p.verse)
    ∧ (validate_answer (extractive_answer query passages) passages).valid = true
    ∧ (validate_answer (extractive_answer query passages) passages).invalid_citations
        = [] := by
  intro query passages hne
  obtain ⟨best, rest, rfl⟩ : ∃ b r, passages = b :: r := by
    cases passages with
    | nil => exact absurd rfl hne
    | cons b r => exact ⟨b, r, rfl⟩
  have hform : ∃ s, extractive_answer query (best :: rest) = composedAnswer s best rest
      ∧ ('.' ∉ s ∨ ∃ w, s = w ++ ['.'] ∧ '.' ∉ w) := by
    by_cases hp : (bestLoop query (splitRuns isSentPunct best.text) ([], 0)).1 = []
    · refine ⟨fallbackSentence best.text, ?_, Or.inr
        ⟨(splitOnChar '.' best.text).headD [], rfl, (splitOnCharHead '.' best.text).2⟩⟩
      simp only [extractive_answer]
      rw [if_pos hp]
    · refine ⟨(bestLoop query (splitRuns isSentPunct best.text) ([], 0)).1,
        by simp only [extractive_answer]; rw [if_neg hp], Or.inl ?_⟩
      rcases bestLoopPick query (splitRuns isSentPunct best.text) ([], 0) with h | ⟨t, ht, he⟩
      · exact absurd h hp
      · rw [he]
        intro hdotmem
        have hmem := stripCharsSubset pyIsSpace t '.' hdotmem
        have := splitRunsNoPunct isSentPunct best.text t ht '.' hmem
        simp [isSentPunct] at this
  obtain ⟨s, hans, hdots⟩ := hform
  have hextract := extractComposed s best rest hdots
  have hsub : ∀ cit ∈ extract_citations_from_text (extractive_answer query (best :: rest)),
      ∃ p ∈ best :: rest, cit = build_citation p.chapter p.verse := by
    intro cit hcit
    rw [hans, hextract] at hcit
    rcases List.mem_cons.mp hcit with rfl | hcit'
    · exact ⟨best, List.mem_cons_self _ _, rfl⟩
    · obtain ⟨p, hpmem, hpc⟩ := List.mem_map.mp hcit'
      exact ⟨p, List.mem_cons_of_mem _ (List.take_subset _ _ hpmem), hpc.symm⟩
  have hinv : (validate_answer (extractive_answer query (best :: rest))
      (best :: rest)).invalid_citations = [] := by
    simp only [validate_answer]
    rw [List.filter_eq_nil_iff]
    intro cit hcit
    have hcit' := List.mem_dedup.mp hcit
    obtain ⟨p, hpmem, rfl⟩ := hsub cit hcit'
    have hpc : build_citation p.chapter p.verse ∈
        ((best :: rest).map (fun p => build_citation p.chapter p.verse)).dedup :=
      List.mem_dedup.mpr (List.mem_map.mpr ⟨p, hpmem, rfl⟩)
    simp [List.elem_eq_true_of_mem hpc]
    intro hneq
    rcases List.mem_map.mp (List.mem_dedup.mp hpc) with ⟨x, hx, hxe⟩
    rcases List.mem_cons.mp hx with rfl | hx'
    · exact absurd hxe.symm hneq
    · exact ⟨x, hx', hxe⟩
  refine ⟨hsub, ?_, hinv⟩
  simp only [validate_answer] at hinv ⊢
  rw [hinv]
  rfl

/-- Witness for C1: a concrete extractive answer over a one-passage
list validates with no invalid citations. -/
theorem claim_C1_witness :
    (validate_answer (extractive_answer (("what is my duty").data) [passA])
      [passA]).valid = true
    ∧ (validate_answer (extractive_answer (("what is my duty").data) [passA])
      [passA]).invalid_citations = [] :=
  ⟨(claim_C1_extractive_citations_valid (("what is my duty").data) [passA]
      (by simp)).2.1,
   (claim_C1_extractive_citations_valid (("what is my duty").data) [passA]
      (by simp)).2.2⟩

/-- Head-is-whitespace test. -/
def headSp (l : List Char) : Bool :=
  match l with
  | [] => false
  | c :: _ => pyIsSpace c

theorem twBlock (p : Char → Bool) : ∀ (a b : List Char), (∀ c ∈ a, p c = true) →
    (∀ x t, b = x :: t → p x = false) →
    (a ++ b).takeWhile p = a ∧ (a ++ b).dropWhile p = b := by
  intro a
  induction a with
  | nil =>
    intro b _ hb
    exact ⟨twNotHead _ b hb, dwNotHead _ b hb⟩
  | cons c cs ih =>
    intro b ha hb
    have hc : p c = true := ha c (List.mem_cons_self _ _)
    have := ih b (fun d hd => ha d (List.mem_cons_of_mem _ hd)) hb
    constructor
    · rw [List.cons_append, List.takeWhile_cons, if_pos hc, this.1]
    · rw [List.cons_append, List.dropWhile_cons, if_pos hc, this.2]

theorem wordsDropWhileSp : ∀ l : List Char,
    pyWords (l.dropWhile pyIsSpace) = pyWords l := by
  intro l
  induction l with
  | nil => rfl
  | cons c cs ih =>
    by_cases hc : pyIsSpace c = true
    · rw [List.dropWhile_cons, if_pos hc, ih, pyWords, if_pos hc]
    · rw [List.dropWhile_cons, if_neg (by simp [hc])]

theorem wordsOfAllSp : ∀ l : List Char, (∀ c ∈ l, pyIsSpace c = true) →
    pyWords l = [] := by
  intro l
  induction l using pyWords.induct with
  | case1 => intro _; rw [pyWords]
  | case2 c cs hc ih =>
    intro h
    rw [pyWords, if_pos hc]
    exact ih (fun d hd => h d (List.mem_cons_of_mem _ hd))
  | case3 c cs hc =>
    intro h
    exact absurd (h c (List.mem_cons_self _ _)) (by simp [hc])

theorem wordsNilAllSp : ∀ l : List Char, pyWords l = [] →
    ∀ c ∈ l, pyIsSpace c = true := by
  intro l
  induction l using pyWords.induct with
  | case1 => intro _ c hc; simp at hc
  | case2 c cs hc ih =>
    intro h d hd
    rw [pyWords, if_pos hc] at h
    rcases List.mem_cons.mp hd with rfl | hd'
    · exact hc
    · exact ih h d hd'
  | case3 c cs hc =>
    intro h
    rw [pyWords, if_neg hc] at h
    simp at h

theorem wordsNoSp : ∀ (l : List Char) (w : List Char), w ∈ pyWords l →
    ∀ c ∈ w, pyIsSpace c = false := by
  intro l
  induction l using pyWords.induct with
  | case1 => intro w hw; simp [pyWords] at hw
  | case2 c cs hc ih =>
    intro w hw
    rw [pyWords, if_pos hc] at hw
    exact ih w hw
  | case3 c cs hc ih =>
    intro w hw d hd
    rw [pyWords, if_neg hc] at hw
    rcases List.mem_cons.mp hw with rfl | hw'
    · rcases List.mem_cons.mp hd with rfl | hd'
      · simpa using hc
      · have := List.mem_takeWhile_imp hd'
        simpa using this
    · exact ih w hw' d hd

theorem twNotAll (p : Char → Bool) : ∀ (a b : List Char), ¬(∀ c ∈ a, p c = true) →
    (a ++ b).takeWhile p = a.takeWhile p ∧ (a ++ b).dropWhile p = a.dropWhile p ++ b := by
  intro a
  induction a with
  | nil => intro b h; exact absurd (by simp) h
  | cons c cs ih =>
    intro b h
    by_cases hc : p c = true
    · have h' : ¬(∀ d ∈ cs, p d = true) := by
        intro hall
        refine h ?_
        intro d hd
        rcases List.mem_cons.mp hd with rfl | hd'
        · exact hc
        · exact hall d hd'
      have := ih b h'
      constructor
      · rw [List.cons_append, List.takeWhile_cons, if_pos hc, this.1,
          List.takeWhile_cons, if_pos hc]
      · rw [List.cons_append, List.dropWhile_cons, if_pos hc, this.2,
          List.dropWhile_cons, if_pos hc]
    · constructor
      · rw [List.cons_append, List.takeWhile_cons, if_neg hc,
          List.takeWhile_cons, if_neg hc]
      · rw [List.cons_append, List.dropWhile_cons, if_neg hc,
          List.dropWhile_cons, if_neg hc]
        rfl

theorem wordsAppendSp : ∀ (a t : List Char), (∀ c ∈ t, pyIsSpace c = true) →
    pyWords (a ++ t) = pyWords a := by
  intro a
  induction a using pyWords.induct with
  | case1 =>
    intro t ht
    rw [List.nil_append, wordsOfAllSp t ht, pyWords]
  | case2 c cs hc ih =>
    intro t ht
    rw [List.cons_append, pyWords, if_pos hc, pyWords, if_pos hc]
    exact ih t ht
  | case3 c cs hc ih =>
    intro t ht
    rw [List.cons_append, pyWords, if_neg hc, pyWords, if_neg hc]
    by_cases hall : ∀ d ∈ cs, (!pyIsSpace d) = true
    · have hbt : ∀ x u, t = x :: u → (!pyIsSpace x) = false := by
        intro x u hx
        have := ht x (by rw [hx]; exact List.mem_cons_self _ _)
        simp [this]
      have h1 := twBlock (fun d => !pyIsSpace d) cs t hall hbt
      have h2 := twBlock (fun d => !pyIsSpace d) cs [] hall
        (by intro x u hx; simp at hx)
      rw [List.append_nil] at h2
      rw [h1.1, h1.2, h2.1, h2.2, wordsOfAllSp t ht, pyWords]
    · have h1 := twNotAll (fun d => !pyIsSpace d) cs t hall
      rw [h1.1, h1.2]
      rw [ih t ht]


theorem joinConsNe (sep x : List Char) (ws : List (List Char)) (h : ws ≠ []) :
    joinWith sep (x :: ws) = x ++ sep ++ joinWith sep ws := by
  cases ws with
  | nil => exact absurd rfl h
  | cons y t => rfl

theorem rdropDecomp (p : Char → Bool) (l : List Char) :
    l = l.rdropWhile p ++ (l.reverse.takeWhile p).reverse
    ∧ ∀ c ∈ (l.reverse.takeWhile p).reverse, p c = true := by
  constructor
  · rw [List.rdropWhile, ← List.reverse_append, List.takeWhile_append_dropWhile,
      List.reverse_reverse]
  · intro c hc
    rw [List.mem_reverse] at hc
    exact List.mem_takeWhile_imp hc

theorem wordsStrip (l : List Char) : pyWords (pyStrip l) = pyWords l := by
  obtain ⟨hdec, hall⟩ := rdropDecomp pyIsSpace (l.dropWhile pyIsSpace)
  calc pyWords (pyStrip l)
      = pyWords (pyStrip l ++ ((l.dropWhile pyIsSpace).reverse.takeWhile pyIsSpace).reverse) :=
        (wordsAppendSp _ _ hall).symm
    _ = pyWords (l.dropWhile pyIsSpace) := by
        rw [pyStrip, stripChars, ← hdec]
    _ = pyWords l := wordsDropWhileSp l

theorem getLastConsNe (c : Char) (cs : List Char) (h : cs ≠ []) :
    (c :: cs).getLast? = cs.getLast? := by
  cases cs with
  | nil => exact absurd rfl h
  | cons d t => exact List.getLast?_cons_cons

theorem getLastDropWhile (p : Char → Bool) : ∀ l : List Char,
    l.dropWhile p ≠ [] → (l.dropWhile p).getLast? = l.getLast? := by
  intro l
  induction l with
  | nil => intro h; exact absurd rfl h
  | cons c cs ih =>
    intro h
    by_cases hc : p c = true
    · rw [List.dropWhile_cons, if_pos hc] at h ⊢
      rw [ih h, getLastConsNe]
      intro hnil
      rw [hnil] at h
      simp at h
    · rw [List.dropWhile_cons, if_neg hc]

theorem collapseNonspPrefix : ∀ (w r : List Char), (∀ c ∈ w, pyIsSpace c = false) →
    collapseWs (w ++ r) = w ++ collapseWs r := by
  intro w
  induction w with
  | nil => intro r _; rfl
  | cons c w' ih =>
    intro r hw
    rw [List.cons_append, collapseWs,
      if_neg (by simp [hw c (List.mem_cons_self _ _)])]
    rw [ih r (fun d hd => hw d (List.mem_cons_of_mem _ hd))]
    rfl

/-- Characterization of whitespace collapsing on inputs with no trailing
whitespace: a possible leading single space, then the words joined by
single spaces. -/
theorem collapseJoin : ∀ (N : Nat) (n : List Char), n.length ≤ N →
    (∀ c, n.getLast? = some c → pyIsSpace c = false) →
    collapseWs n = (if headSp n then [' '] else []) ++ joinWith [' '] (pyWords n) := by
  intro N
  induction N with
  | zero =>
    intro n hn _
    have : n = [] := List.length_eq_zero.mp (Nat.le_zero.mp hn)
    subst this
    rw [collapseWs, pyWords]
    rfl
  | succ N ih =>
    intro n hn hlast
    cases n with
    | nil =>
      rw [collapseWs, pyWords]
      rfl
    | cons c cs =>
      by_cases hc : pyIsSpace c = true
      · -- leading whitespace: collapse emits one space and skips the run
        have hm : cs.dropWhile pyIsSpace ≠ [] := by
          intro hnil
          rw [List.dropWhile_eq_nil_iff] at hnil
          cases hcs : cs with
          | nil =>
            rw [hcs] at hlast
            have := hlast c (by simp)
            rw [this] at hc
            simp at hc
          | cons d t =>
            have hlastcs : (c :: cs).getLast? = cs.getLast? := by
              rw [getLastConsNe c cs (by rw [hcs]; simp)]
            obtain ⟨e, he⟩ : ∃ e, cs.getLast? = some e := by
              rw [hcs]
              exact ⟨(d :: t).getLast (by simp), List.getLast?_eq_getLast _ _⟩
            have hesp := hnil e (List.mem_of_mem_getLast? he)
            have := hlast e (by rw [hlastcs]; exact he)
            rw [this] at hesp
            simp at hesp
        have hcsne : cs ≠ [] := by
          intro hnil
          rw [hnil] at hm
          simp at hm
        have hlen : (cs.dropWhile pyIsSpace).length ≤ N := by
          have h1 := dropWhileLenLe pyIsSpace cs
          have h2 : cs.length ≤ N := by
            have := hn
            simp only [List.length_cons] at this
            omega
          omega
        have hlast' : ∀ d, (cs.dropWhile pyIsSpace).getLast? = some d →
            pyIsSpace d = false := by
          intro d hd
          rw [getLastDropWhile pyIsSpace cs hm] at hd
          refine hlast d ?_
          rw [getLastConsNe c cs hcsne]
          exact hd
        have hrec := ih (cs.dropWhile pyIsSpace) hlen hlast'
        have hheadm : headSp (cs.dropWhile pyIsSpace) = false := by
          cases hd : cs.dropWhile pyIsSpace with
          | nil => exact absurd hd hm
          | cons d t =>
            have := dwHeadFalse pyIsSpace cs d t hd
            simp [headSp, this]
        rw [collapseWs, if_pos hc, hrec, hheadm]
        have hwords : pyWords (c :: cs) = pyWords (cs.dropWhile pyIsSpace) := by
          rw [pyWords, if_pos hc, wordsDropWhileSp]
        rw [hwords]
        simp [headSp, hc]
      · -- leading non-space: peel the first word
        have hcf : pyIsSpace c = false := by simpa using hc
        rw [collapseWs, if_neg hc]
        rw [pyWords, if_neg hc]
        have hsplit : cs = cs.takeWhile (fun d => !pyIsSpace d)
            ++ cs.dropWhile (fun d => !pyIsSpace d) := by
          rw [List.takeWhile_append_dropWhile]
        have htwno : ∀ d ∈ cs.takeWhile (fun d => !pyIsSpace d), pyIsSpace d = false := by
          intro d hd
          have := List.mem_takeWhile_imp hd
          simpa using this
        cases hdw : cs.dropWhile (fun d => !pyIsSpace d) with
        | nil =>
          have hcs : cs = cs.takeWhile (fun d => !pyIsSpace d) := by
            conv_lhs => rw [hsplit]
            rw [hdw, List.append_nil]
          rw [pyWords]
          conv_lhs => rw [hcs]
          rw [show (cs.takeWhile (fun d => !pyIsSpace d) : List Char)
              = cs.takeWhile (fun d => !pyIsSpace d) ++ [] from (List.append_nil _).symm]
          rw [collapseNonspPrefix _ [] htwno, collapseWs]
          simp [headSp, hcf, joinWith]
        | cons d t =>
          have hdsp : pyIsSpace d = true := by
            have := dwHeadFalse (fun d => !pyIsSpace d) cs d t hdw
            simpa using this
          have hdwne : cs.dropWhile (fun d => !pyIsSpace d) ≠ [] := by
            rw [hdw]; simp
          have hlen : (cs.dropWhile (fun d => !pyIsSpace d)).length ≤ N := by
            have h1 := dropWhileLenLe (fun d => !pyIsSpace d) cs
            have h2 : cs.length ≤ N := by
              have := hn
              simp only [List.length_cons] at this
              omega
            omega
          have hcsne : cs ≠ [] := by
            intro hnil
            rw [hnil] at hdwne
            simp at hdwne
          have hlast' : ∀ e, (cs.dropWhile (fun d => !pyIsSpace d)).getLast? = some e →
              pyIsSpace e = false := by
            intro e he
            rw [getLastDropWhile _ cs hdwne] at he
            refine hlast e ?_
            rw [getLastConsNe c cs hcsne]
            exact he
          have hrec := ih (cs.dropWhile (fun d => !pyIsSpace d)) hlen hlast'
          have hwne : pyWords (cs.dropWhile (fun d => !pyIsSpace d)) ≠ [] := by
            intro hwnil
            obtain ⟨e, he⟩ : ∃ e, (cs.dropWhile (fun d => !pyIsSpace d)).getLast? = some e := by
              rw [hdw]
              exact ⟨(d :: t).getLast (by simp), List.getLast?_eq_getLast _ _⟩
            have h1 := hlast' e he
            have h2 := wordsNilAllSp _ hwnil e (List.mem_of_mem_getLast? he)
            rw [h1] at h2
            simp at h2
          have hhead : headSp (cs.dropWhile (fun d => !pyIsSpace d)) = true := by
            rw [hdw]
            simp [headSp, hdsp]
          conv_lhs => rw [hsplit, collapseNonspPrefix _ _ htwno, hrec]
          rw [hhead, hdw]
          rw [joinConsNe [' '] _ _ (hdw ▸ hwne)]
          simp [headSp, hcf, List.append_assoc]


theorem stripHeadNoSp (l : List Char) : headSp (pyStrip l) = false := by
  cases hs : pyStrip l with
  | nil => rfl
  | cons c t =>
    obtain ⟨u, hu⟩ := List.rdropWhile_prefix pyIsSpace (l := l.dropWhile pyIsSpace)
    rw [show (l.dropWhile pyIsSpace).rdropWhile pyIsSpace = pyStrip l from rfl, hs] at hu
    have hm : l.dropWhile pyIsSpace = c :: (t ++ u) := by
      rw [← hu]
      rfl
    have := dwHeadFalse pyIsSpace l c (t ++ u) hm
    simp [headSp, this]

theorem stripLastCond (l : List Char) :
    ∀ e, (pyStrip l).getLast? = some e → pyIsSpace e = false := by
  intro e he
  have hne : pyStrip l ≠ [] := by
    intro h
    rw [h] at he
    simp at he
  have hgl : (pyStrip l).getLast hne = e := by
    have := List.getLast?_eq_getLast (pyStrip l) hne
    rw [he] at this
    exact (Option.some.inj this).symm
  have hlast : ¬pyIsSpace ((pyStrip l).getLast hne) = true :=
    List.rdropWhile_last_not pyIsSpace (l.dropWhile pyIsSpace) hne
  rw [hgl] at hlast
  simpa using hlast

theorem wordsAllNonsp (w : List Char) (hw : ∀ c ∈ w, pyIsSpace c = false)
    (hne : w ≠ []) : pyWords w = [w] := by
  cases w with
  | nil => exact absurd rfl hne
  | cons c cs =>
    have hc : pyIsSpace c = false := hw c (List.mem_cons_self _ _)
    rw [pyWords, if_neg (by simp [hc])]
    have hall : ∀ d ∈ cs, (!pyIsSpace d) = true := by
      intro d hd
      simp [hw d (List.mem_cons_of_mem _ hd)]
    have h2 := twBlock (fun d => !pyIsSpace d) cs [] hall
      (by intro x u hx; simp at hx)
    rw [List.append_nil] at h2
    rw [h2.1, h2.2, pyWords]

theorem wordsJoin : ∀ ws : List (List Char),
    (∀ w ∈ ws, ∀ c ∈ w, pyIsSpace c = false) →
    pyWords (joinWith [' '] ws) = ws.filter (fun w => !w.isEmpty) := by
  intro ws
  induction ws with
  | nil => intro _; rw [joinWith, pyWords, List.filter_nil]
  | cons w t ih =>
    intro hsp
    cases t with
    | nil =>
      show pyWords w = _
      cases hw : w with
      | nil =>
        subst hw
        rw [pyWords]
        rfl
      | cons c cs =>
        rw [← hw, wordsAllNonsp w (hsp w (List.mem_cons_self _ _)) (by rw [hw]; simp)]
        rw [List.filter_cons, List.filter_nil, hw]
        rfl
    | cons y t' =>
      have hJ := joinConsNe [' '] w (y :: t') (by simp)
      rw [hJ]
      have ihy := ih (fun v hv => hsp v (List.mem_cons_of_mem _ hv))
      cases hw : w with
      | nil =>
        subst hw
        simp only [List.nil_append]
        rw [show (([' '] : List Char) ++ joinWith [' '] (y :: t'))
          = ' ' :: joinWith [' '] (y :: t') from rfl]
        rw [pyWords, if_pos (by decide), ihy]
        simp
      | cons c cs =>
        subst hw
        have hwsp := hsp (c :: cs) (List.mem_cons_self _ _)
        have hc : pyIsSpace c = false := hwsp c (List.mem_cons_self _ _)
        have hall : ∀ d ∈ cs, (!pyIsSpace d) = true := by
          intro d hd
          simp [hwsp d (List.mem_cons_of_mem _ hd)]
        rw [List.append_assoc, List.cons_append, pyWords, if_neg (by simp [hc])]
        have hblock := twBlock (fun d => !pyIsSpace d)
          cs ([' '] ++ joinWith [' '] (y :: t')) hall
          (by intro x u hx; injection hx with h1 _; rw [← h1]; decide)
        rw [hblock.1, hblock.2]
        rw [show (([' '] : List Char) ++ joinWith [' '] (y :: t'))
          = ' ' :: joinWith [' '] (y :: t') from rfl]
        rw [pyWords, if_pos (by decide), ihy]
        simp

theorem filterJoin : ∀ ws : List (List Char),
    (joinWith [' '] ws).filter keepChar
      = joinWith [' '] (ws.map (List.filter keepChar)) := by
  intro ws
  induction ws with
  | nil => rfl
  | cons w t ih =>
    cases t with
    | nil => rfl
    | cons y t' =>
      rw [joinConsNe [' '] w (y :: t') (by simp), List.map_cons,
        joinConsNe [' '] _ ((y :: t').map (List.filter keepChar)) (by simp)]
      rw [List.filter_append, List.filter_append, ih]
      rfl


/-- Closed form of clean_text: the whitespace-split words of the input,
each purged of non-printable characters, joined by single spaces. -/
theorem cleanTextJoin (l : List Char) :
    clean_text l = joinWith [' '] ((pyWords l).map (List.filter keepChar)) := by
  by_cases hl : l = []
  · subst hl
    rw [clean_text, if_pos rfl, pyWords]
    rfl
  · rw [clean_text, if_neg hl]
    rw [collapseJoin (pyStrip l).length (pyStrip l) (Nat.le_refl _) (stripLastCond l)]
    rw [stripHeadNoSp l]
    simp only [Bool.false_eq_true, if_false, List.nil_append]
    rw [wordsStrip l]
    exact filterJoin (pyWords l)

/-- C6 (amended): clean_text is not idempotent in one application —
removing a non-printable character can merge two whitespace runs into a
double space (see the counterexample) — but one further application
reaches a fixed point: clean_text (clean_text x) is invariant under
clean_text for every string x. -/
theorem claim_C6_amended_stable : ∀ l : List Char,
    clean_text (clean_text (clean_text l)) = clean_text (clean_text l) := by
  intro l
  have hwsp : ∀ w ∈ (pyWords l).map (List.filter keepChar),
      ∀ c ∈ w, pyIsSpace c = false := by
    intro w hw c hc
    obtain ⟨w0, hw0, rfl⟩ := List.mem_map.mp hw
    exact wordsNoSp l w0 hw0 c (List.mem_of_mem_filter hc)
  have hFix : ∀ w ∈ (pyWords l).map (List.filter keepChar),
      List.filter keepChar w = w := by
    intro w hw
    obtain ⟨w0, _, rfl⟩ := List.mem_map.mp hw
    rw [List.filter_filter]
    congr 1
    funext a
    exact Bool.and_self _
  have hstep : ∀ ws' : List (List Char),
      (∀ w ∈ ws', ∀ c ∈ w, pyIsSpace c = false) →
      (∀ w ∈ ws', List.filter keepChar w = w) →
      clean_text (joinWith [' '] ws')
        = joinWith [' '] (ws'.filter (fun w => !w.isEmpty)) := by
    intro ws' hsp hfix
    rw [cleanTextJoin, wordsJoin ws' hsp]
    congr 1
    calc (ws'.filter (fun w => !w.isEmpty)).map (List.filter keepChar)
        = (ws'.filter (fun w => !w.isEmpty)).map id :=
          List.map_congr_left (fun w hw => hfix w (List.mem_of_mem_filter hw))
      _ = ws'.filter (fun w => !w.isEmpty) := List.map_id _
  have h1 : clean_text (clean_text l)
      = joinWith [' ']
          (((pyWords l).map (List.filter keepChar)).filter (fun w => !w.isEmpty)) := by
    rw [cleanTextJoin l]
    exact hstep _ hwsp hFix
  have h2 : clean_text (clean_text (clean_text l))
      = joinWith [' ']
          ((((pyWords l).map (List.filter keepChar)).filter
            (fun w => !w.isEmpty)).filter (fun w => !w.isEmpty)) := by
    rw [h1]
    exact hstep _ (fun w hw => hwsp w (List.mem_of_mem_filter hw))
      (fun w hw => hFix w (List.mem_of_mem_filter hw))
  rw [h2, h1, List.filter_filter]
  rw [show (fun a : List Char => !a.isEmpty && !a.isEmpty)
    = (fun w : List Char => !w.isEmpty) from funext fun a => Bool.and_self _]

/-- Counterexample to C6 as stated: cleaning "a \x01 b" yields "a  b"
(the removed control character leaves a double space), and cleaning
again yields "a b", so clean_text(clean_text(x)) differs from
clean_text(x). -/
theorem claim_C6_counterexample :
    clean_text (clean_text (("a \x01 b").data)) ≠ clean_text (("a \x01 b").data) := by
  have h1 : clean_text (("a \x01 b").data) = ("a  b").data := by
    simp +decide [clean_text, collapseWs, pyStrip, stripChars, List.rdropWhile]
  have h2 : clean_text (("a  b").data) = ("a b").data := by
    simp +decide [clean_text, collapseWs, pyStrip, stripChars, List.rdropWhile]
  rw [h1, h2]
  decide

end GitaQuery

